import Mathlib

/-!
Verification of the Arch Network block indexer (src/index.js) against its
natural-language specification.

The development is a shallow embedding of the indexer's core logic:
machine numbers become `Nat`/`Int`/`ℚ`, the PostgreSQL tables become lists
of row structures, the `INSERT ... ON CONFLICT ... DO UPDATE` statements
become an explicit upsert on those lists, and the node RPC client becomes
a function parameter (`String → Option ProcessedTx`, `none` modelling a
failed remote call).  JavaScript floating point arithmetic is embedded as
exact rational arithmetic.
-/

namespace ArchIndexer

/-! ## Sync orchestrator model (index.js, `syncBlocks`) -/

/-- `const BATCH_SIZE = 100` (index.js line 77). -/
def BATCH_SIZE : Nat := 100

/-- `const CONCURRENT_BATCHES = 5` (index.js line 78). -/
def CONCURRENT_BATCHES : Nat := 5

/-- The window-launching `for` loop of `syncBlocks` (index.js lines 83-103):
for `i = 0` up to `k - 1`, `batchStart = start + i * BATCH_SIZE`; the loop
`break`s at the first `batchStart > latest`, otherwise it records the window
`(batchStart, min (batchStart + BATCH_SIZE - 1) latest)`.  Iterating with
`start + BATCH_SIZE` is the same arithmetic as `frontier + i * BATCH_SIZE`. -/
def mkWindows : Nat → Nat → Nat → List (Nat × Nat)
  | 0, _, _ => []
  | k + 1, start, latest =>
    if start ≤ latest then
      (start, min (start + BATCH_SIZE - 1) latest) :: mkWindows k (start + BATCH_SIZE) latest
    else []

/-- The windows launched in one round of `syncBlocks` at a given frontier. -/
def roundWindows (frontier latest : Nat) : List (Nat × Nat) :=
  mkWindows CONCURRENT_BATCHES frontier latest

/-- The heights `batchStart .. batchEnd` processed inside one window
(index.js lines 90-92). -/
def windowHeights (w : Nat × Nat) : List Nat :=
  List.range' w.1 (w.2 + 1 - w.1)

/-- A window's `Promise.all(blockPromises)` succeeds exactly when
`processBlock` succeeds for every height in the window; `ok` abstracts
per-height success of `processBlock`. -/
def windowOk (ok : Nat → Bool) (w : Nat × Nat) : Bool :=
  (windowHeights w).all ok

/-- One iteration of the `while (currentBlockHeight <= latestBlockHeight)`
loop of `syncBlocks` (index.js lines 80-113).  Result: the new frontier and
the retry delay (`some 2000` models the 2s sleep before `continue` in the
failure branch).  On success the frontier becomes
`Math.max(...completedBatchEnds) + 1`; over `Nat`, `Math.max` of the
non-empty list of window ends equals a `max`-fold started at `0`. -/
def syncRound (ok : Nat → Bool) (frontier latest : Nat) : Nat × Option Nat :=
  if frontier ≤ latest then
    if (roundWindows frontier latest).all (windowOk ok) then
      ((((roundWindows frontier latest).map Prod.snd).foldl max 0) + 1, none)
    else (frontier, some 2000)
  else (frontier, none)

/-- Iterated rounds of the sync loop: one abstract per-height success
function per round, threading the frontier. -/
def syncRun (latest : Nat) (rounds : List (Nat → Bool)) (frontier : Nat) : Nat :=
  rounds.foldl (fun f ok => (syncRound ok f latest).1) frontier

/-- The post-loop polling delay of `syncBlocks` (index.js line 115):
`currentBlockHeight >= latestBlockHeight ? 1000 : 100`. -/
def syncDelay (frontier latest : Nat) : Nat :=
  if latest ≤ frontier then 1000 else 100

/-- The startup assignment (index.js line 376):
`currentBlockHeight = result.rows[0].max_height || 0`, where `max_height`
is `SELECT MAX(height) FROM blocks` — `none` models SQL `NULL` (empty
table).  JavaScript `||` takes the right operand when the left is falsy,
i.e. `null` or the number `0`. -/
def initFrontier : Option Nat → Nat
  | none => 0
  | some h => if h = 0 then 0 else h

/-! ## Progress tracker model (index.js, `processBlock` lines 143-144) -/

/-- The smoothed-timing update in `processBlock` (index.js line 144):
`averageBlockTime = averageBlockTime === 0 ? blockTime
                  : (averageBlockTime * 0.9 + blockTime * 0.1)`,
embedded over exact rationals. -/
def recordBlockTime (averageBlockTime blockTime : ℚ) : ℚ :=
  if averageBlockTime = 0 then blockTime
  else averageBlockTime * (9 / 10) + blockTime * (1 / 10)

/-! ## Persistence writer model (index.js, `storeBlock` lines 154-202) -/

/-- A row of the `blocks` table (columns of `insertBlock`, index.js
lines 19-27). -/
structure BlockRow where
  height : Nat
  hash : String
  timestamp : Int
  bitcoin_block_height : Int
deriving DecidableEq, Repr

/-- A row of the `transactions` table (columns of `insertTx`, index.js
lines 28-37).  `bitcoin_txids` stores the empty list for the `'{}'`
empty-array marker. -/
structure TxRow where
  txid : String
  block_height : Nat
  data : String
  status : Nat
  bitcoin_txids : List String
deriving DecidableEq, Repr

/-- A block as assembled by `processBlock` (index.js lines 137-140):
body fetched from the node plus the stamped `height` and `hash`;
`transactions` is the id list. -/
structure Block where
  height : Nat
  hash : String
  timestamp : Int
  bitcoin_block_height : Int
  transactions : List String
deriving DecidableEq, Repr

/-- The node's processed-transaction record
(`archClient.getProcessedTransaction`): `runtime_transaction` is kept
opaque (its `JSON.stringify` image), `bitcoin_txids` may be absent
(JavaScript `null`/`undefined`). -/
structure ProcessedTx where
  runtime_transaction : String
  status : String
  bitcoin_txids : Option (List String)
deriving DecidableEq, Repr

/-- The status normalization inside `storeBlock` (index.js line 186):
`tx.status === 'Processing' ? 0 : 1`. -/
def txStatusCode (status : String) : Nat :=
  if status = "Processing" then 0 else 1

/-- The `transactions` row written by `storeBlock` for a resolved id
(index.js lines 182-188): `bitcoin_txids && bitcoin_txids.length > 0 ?
bitcoin_txids : '{}'`. -/
def mkTxRow (blockHeight : Nat) (txId : String) (tx : ProcessedTx) : TxRow :=
  { txid := txId
    block_height := blockHeight
    data := tx.runtime_transaction
    status := txStatusCode tx.status
    bitcoin_txids :=
      match tx.bitcoin_txids with
      | some l => if 0 < l.length then l else []
      | none => [] }

/-- The `blocks` row written by `storeBlock` (index.js lines 160-165). -/
def blockRowOf (b : Block) : BlockRow :=
  { height := b.height
    hash := b.hash
    timestamp := b.timestamp
    bitcoin_block_height := b.bitcoin_block_height }

/-- `INSERT ... ON CONFLICT (key) DO UPDATE SET <every non-key column> =
EXCLUDED.<column>` on a list-of-rows table: if a row with the new row's key
exists, every such row is replaced by the new row (all mutable columns are
overwritten, the key is unchanged); otherwise the new row is appended. -/
def upsertBy {α κ : Type} [DecidableEq κ] (key : α → κ) (t : List α) (r : α) : List α :=
  if ∃ b ∈ t, key b = key r then t.map (fun b => if key b = key r then r else b)
  else t ++ [r]

/-- The database state: the `blocks` and `transactions` tables. -/
structure DB where
  blocks : List BlockRow
  transactions : List TxRow
deriving DecidableEq, Repr

/-- The primary-key constraints of the schema: at most one `blocks` row per
`height`, at most one `transactions` row per `txid`. -/
def wfDB (db : DB) : Prop :=
  (db.blocks.map (fun r => r.height)).Nodup ∧
  (db.transactions.map (fun r => r.txid)).Nodup

/-- The sub-batching of a block's transaction-id list in groups of 50
(index.js lines 169-171): `block.transactions.slice(i, i + 50)` for
`i = 0, 50, 100, ...`. -/
def txBatches : List String → List (List String)
  | [] => []
  | x :: xs => ((x :: xs).take 50) :: txBatches ((x :: xs).drop 50)
termination_by l => l.length
decreasing_by simp [List.length_drop]; omega

/-- `Promise.all(txPromises)` over one sub-batch (index.js lines 172-180):
resolve every id of the batch via the node, all-or-nothing. -/
def resolveTxBatch (node : String → Option ProcessedTx) :
    List String → Option (List (String × ProcessedTx))
  | [] => some []
  | t :: ts =>
    match node t with
    | none => none
    | some tx =>
      match resolveTxBatch node ts with
      | none => none
      | some rest => some ((t, tx) :: rest)

/-- The `insertTx` upserts issued for one resolved sub-batch
(index.js lines 181-191). -/
def applyTxUpserts (height : Nat) (db : DB) (resolved : List (String × ProcessedTx)) : DB :=
  resolved.foldl
    (fun d p => { d with transactions := upsertBy (fun r => r.txid) d.transactions (mkTxRow height p.1 p.2) })
    db

/-- The sub-batch loop of `storeBlock` (index.js lines 170-192): resolve a
sub-batch, upsert its rows, continue; any resolution failure aborts the
whole store. -/
def storeTxBatches (node : String → Option ProcessedTx) (height : Nat) :
    DB → List (List String) → Option DB
  | db, [] => some db
  | db, batch :: rest =>
    match resolveTxBatch node batch with
    | none => none
    | some resolved => storeTxBatches node height (applyTxUpserts height db resolved) rest

/-- The body of `storeBlock`'s database transaction (index.js lines
157-195): upsert the block row, then resolve and upsert the transaction
rows sub-batch by sub-batch.  `some` is the state at `COMMIT`; `none`
means the transaction failed before `COMMIT`. -/
def storeBlockOps (node : String → Option ProcessedTx) (b : Block) (db : DB) : Option DB :=
  storeTxBatches node b.height
    { db with blocks := upsertBy (fun r => r.height) db.blocks (blockRowOf b) }
    (txBatches b.transactions)

/-- `storeBlock` as observed by the caller and by readers (index.js lines
154-202): on success the committed state becomes visible (`true`);
on any failure `ROLLBACK` restores the original state and the error is
re-thrown (`false`). -/
def storeBlock (node : String → Option ProcessedTx) (b : Block) (db : DB) : DB × Bool :=
  match storeBlockOps node b db with
  | some db₂ => (db₂, true)
  | none => (db, false)

/-! ## Query API model (index.js, route handlers) -/

/-- The whitespace skipped by JavaScript `parseInt` (ASCII range). -/
def isJsSpace (c : Char) : Bool :=
  c = ' ' || c = '\t' || c = '\n' || c = '\r' || c = '\x0b' || c = '\x0c'

/-- The numeric value of a character in a given radix, as `parseInt`
reads digits. -/
def digitVal (base : Nat) (c : Char) : Option Nat :=
  let v : Option Nat :=
    if '0' ≤ c ∧ c ≤ '9' then some (c.toNat - '0'.toNat)
    else if 'a' ≤ c ∧ c ≤ 'z' then some (c.toNat - 'a'.toNat + 10)
    else if 'A' ≤ c ∧ c ≤ 'Z' then some (c.toNat - 'A'.toNat + 10)
    else none
  match v with
  | some n => if n < base then some n else none
  | none => none

/-- The longest digit prefix of a character list in a given radix. -/
def takeDigits (base : Nat) : List Char → List Nat
  | [] => []
  | c :: cs =>
    match digitVal base c with
    | some v => v :: takeDigits base cs
    | none => []

/-- JavaScript `parseInt(s)` with no radix argument, for ASCII inputs
(index.js line 467): skip leading whitespace, read an optional sign, use
radix 16 when the rest starts with `0x`/`0X` and 10 otherwise, consume the
longest digit prefix; `NaN` (here `none`) when no digit was consumed. -/
def jsParseInt (s : String) : Option Int :=
  let cs := s.data.dropWhile isJsSpace
  let signed : Int × List Char :=
    match cs with
    | '-' :: rest => (-1, rest)
    | '+' :: rest => (1, rest)
    | _ => (1, cs)
  let based : Nat × List Char :=
    match signed.2 with
    | '0' :: 'x' :: rest => (16, rest)
    | '0' :: 'X' :: rest => (16, rest)
    | _ => (10, signed.2)
  let ds := takeDigits based.1 based.2
  if ds = [] then none
  else some (signed.1 * ((ds.foldl (fun acc v => acc * based.1 + v) 0 : Nat) : Int))

/-- The response of `GET /api/search` (index.js lines 449-481). -/
inductive SearchResult where
  | tx (r : TxRow)
  | block (r : BlockRow)
  | notFound
deriving DecidableEq, Repr

/-- `GET /api/search?term=...` (index.js lines 449-481): first row with
`txid = term`; otherwise first block row with `hash = term`; otherwise,
when `parseInt(term)` is a number, the first block row at that height;
otherwise 404. -/
def searchTerm (db : DB) (term : String) : SearchResult :=
  match db.transactions.find? (fun r => r.txid = term) with
  | some r => .tx r
  | none =>
    match db.blocks.find? (fun r => r.hash = term) with
    | some r => .block r
    | none =>
      match jsParseInt term with
      | some h =>
        match db.blocks.find? (fun r => (r.height : Int) = h) with
        | some r => .block r
        | none => .notFound
      | none => .notFound

/-- `GET /api/blocks` (index.js line 210):
`SELECT * FROM blocks ORDER BY height DESC LIMIT 200`, the sort embedded
as an insertion sort by descending height. -/
def apiBlocks (db : DB) : List BlockRow :=
  (List.insertionSort (fun a b => b.height ≤ a.height) db.blocks).take 200

/-- `GET /api/transactions` (index.js line 292):
`SELECT * FROM transactions ORDER BY block_height DESC LIMIT 20`. -/
def apiTransactions (db : DB) : List TxRow :=
  (List.insertionSort (fun a b => b.block_height ≤ a.block_height) db.transactions).take 20

/-! ## Concrete example values used by witnesses -/

/-- A node whose only known transaction is `"t1"`. -/
def exNode : String → Option ProcessedTx :=
  fun t => if t = "t1" then some ⟨"payload", "Processing", none⟩ else none

/-- A node for which every transaction fetch fails. -/
def exNodeDown : String → Option ProcessedTx := fun _ => none

/-- A concrete block at height 7 with one transaction id. -/
def exBlock : Block := ⟨7, "h7", 123, 45, ["t1"]⟩

/-- The empty database. -/
def exDB0 : DB := ⟨[], []⟩

/-- The database after storing `exBlock` from `exNode` into `exDB0`. -/
def exDB1 : DB := ⟨[⟨7, "h7", 123, 45⟩], [⟨"t1", 7, "payload", 0, []⟩]⟩

/-- A database where the term `"dead"` is both a transaction id and a
block hash. -/
def exSearchDB : DB := ⟨[⟨1, "dead", 0, 0⟩], [⟨"dead", 1, "p", 1, []⟩]⟩

/-! ## Helper lemmas: upsert -/

section Upsert

variable {α κ : Type} [DecidableEq κ] (key : α → κ)

theorem mem_upsertBy_self (t : List α) (r : α) : r ∈ upsertBy key t r := by
  unfold upsertBy
  split
  · next h =>
    obtain ⟨b, hb, hk⟩ := h
    exact List.mem_map.2 ⟨b, hb, by simp [hk]⟩
  · simp

theorem mem_upsertBy_of_mem {t : List α} {r r' : α} (h : r ∈ t)
    (hk : key r = key r' → r = r') : r ∈ upsertBy key t r' := by
  unfold upsertBy
  split
  · refine List.mem_map.2 ⟨r, h, ?_⟩
    by_cases hkk : key r = key r'
    · rw [if_pos hkk]; exact (hk hkk).symm
    · rw [if_neg hkk]
  · exact List.mem_append_left _ h

theorem keyUnique_upsertBy {t : List α} (ht : (t.map key).Nodup) (r : α) :
    ((upsertBy key t r).map key).Nodup := by
  unfold upsertBy
  split
  · have heq : (t.map (fun b => if key b = key r then r else b)).map key = t.map key := by
      rw [List.map_map]
      apply List.map_congr_left
      intro b hb
      by_cases hkk : key b = key r <;> simp [hkk]
    rw [heq]; exact ht
  · next h =>
    rw [List.map_append]
    simp only [List.map_cons, List.map_nil, List.nodup_append]
    refine ⟨ht, List.nodup_singleton _, ?_⟩
    intro x hx hx1
    simp only [List.mem_singleton] at hx1
    obtain ⟨b, hb, hbk⟩ := List.mem_map.1 hx
    exact h ⟨b, hb, by rw [hbk, hx1]⟩

theorem keyUnique_eq {t : List α} (hd : (t.map key).Nodup) {b r : α}
    (hb : b ∈ t) (hr : r ∈ t) (hk : key b = key r) : b = r := by
  induction t with
  | nil => cases hb
  | cons x xs ih =>
    rw [List.map_cons, List.nodup_cons] at hd
    rcases List.mem_cons.1 hb with hbx | hbxs <;> rcases List.mem_cons.1 hr with hrx | hrxs
    · rw [hbx, hrx]
    · exfalso
      apply hd.1
      rw [hbx] at hk
      rw [hk]
      exact List.mem_map_of_mem key hrxs
    · exfalso
      apply hd.1
      rw [hrx] at hk
      rw [← hk]
      exact List.mem_map_of_mem key hbxs
    · exact ih hd.2 hbxs hrxs

theorem upsertBy_eq_self {t : List α} (hd : (t.map key).Nodup) {r : α}
    (hr : r ∈ t) : upsertBy key t r = t := by
  unfold upsertBy
  rw [if_pos ⟨r, hr, rfl⟩]
  have heq : ∀ b ∈ t, (if key b = key r then r else b) = b := by
    intro b hb
    by_cases hkk : key b = key r
    · rw [if_pos hkk]; exact (keyUnique_eq key hd hb hr hkk).symm
    · rw [if_neg hkk]
  rw [List.map_congr_left heq, List.map_id']

theorem length_filter_key_eq_one {t : List α} (hd : (t.map key).Nodup) {r : α}
    (hr : r ∈ t) : (t.filter (fun b => key b = key r)).length = 1 := by
  have hmem : r ∈ t.filter (fun b => key b = key r) := List.mem_filter.2 ⟨hr, by simp⟩
  have hall : ∀ b ∈ t.filter (fun b => key b = key r), b = r := by
    intro b hb
    have hb' := List.mem_filter.1 hb
    exact keyUnique_eq key hd hb'.1 hr (by simpa using hb'.2)
  have hnd : (t.filter (fun b => key b = key r)).Nodup :=
    (List.filter_sublist t).nodup (hd.of_map)
  cases hfe : t.filter (fun b => key b = key r) with
  | nil => rw [hfe] at hmem; cases hmem
  | cons x xs =>
    cases xs with
    | nil => rfl
    | cons y rest =>
      exfalso
      rw [hfe] at hall hnd
      have hx := hall x (by simp)
      have hy := hall y (by simp)
      rw [List.nodup_cons] at hnd
      exact hnd.1 (by rw [hx, ← hy]; exact List.mem_cons_self _ _)

end Upsert

/-! ## Helper lemmas: windows and rounds -/

theorem mkWindows_succ (k start latest : Nat) :
    mkWindows (k + 1) start latest =
      if start ≤ latest then
        (start, min (start + BATCH_SIZE - 1) latest) :: mkWindows k (start + BATCH_SIZE) latest
      else [] := rfl

theorem roundWindows_head (frontier latest : Nat) (h : frontier ≤ latest) :
    roundWindows frontier latest =
      (frontier, min (frontier + BATCH_SIZE - 1) latest) ::
        mkWindows 4 (frontier + BATCH_SIZE) latest := by
  show mkWindows (4 + 1) frontier latest = _
  rw [mkWindows_succ, if_pos h]

theorem le_foldl_max (l : List Nat) (i : Nat) :
    i ≤ l.foldl max i ∧ ∀ a ∈ l, a ≤ l.foldl max i := by
  induction l generalizing i with
  | nil => simp
  | cons x xs ih =>
    refine ⟨le_trans (le_max_left i x) (ih (max i x)).1, ?_⟩
    intro a ha
    rcases List.mem_cons.1 ha with hax | haxs
    · rw [hax]
      exact le_trans (le_max_right i x) (ih (max i x)).1
    · exact (ih (max i x)).2 a haxs

theorem syncRound_mono (ok : Nat → Bool) (frontier latest : Nat) :
    frontier ≤ (syncRound ok frontier latest).1 := by
  unfold syncRound
  split
  · next hle =>
    split
    · rw [roundWindows_head frontier latest hle, List.map_cons]
      have hmem : min (frontier + BATCH_SIZE - 1) latest ∈
          (min (frontier + BATCH_SIZE - 1) latest) ::
            (mkWindows 4 (frontier + BATCH_SIZE) latest).map Prod.snd :=
        List.mem_cons_self _ _
      have hle2 := (le_foldl_max _ 0).2 _ hmem
      have hf : frontier ≤ min (frontier + BATCH_SIZE - 1) latest :=
        le_min (by simp only [BATCH_SIZE]; omega) hle
      calc frontier ≤ min (frontier + BATCH_SIZE - 1) latest := hf
        _ ≤ _ := hle2
        _ ≤ _ + 1 := Nat.le_succ _
    · exact le_refl _
  · exact le_refl _

/-! ## Helper lemmas: transaction resolution and the store pipeline -/

theorem resolveTxBatch_some_spec {node : String → Option ProcessedTx}
    {batch : List String} {l : List (String × ProcessedTx)}
    (h : resolveTxBatch node batch = some l) :
    (∀ p ∈ l, node p.1 = some p.2 ∧ p.1 ∈ batch) ∧
    (∀ t ∈ batch, ∃ tx, node t = some tx ∧ (t, tx) ∈ l) := by
  induction batch generalizing l with
  | nil =>
    rw [resolveTxBatch] at h
    cases h
    refine ⟨?_, ?_⟩
    · intro p hp; cases hp
    · intro t ht; cases ht
  | cons t ts ih =>
    rw [resolveTxBatch] at h
    cases hn : node t with
    | none => rw [hn] at h; cases h
    | some tx =>
      rw [hn] at h
      cases hrec : resolveTxBatch node ts with
      | none => rw [hrec] at h; cases h
      | some rest =>
        rw [hrec] at h
        cases h
        obtain ⟨ih1, ih2⟩ := ih hrec
        constructor
        · intro p hp
          rcases List.mem_cons.1 hp with hp1 | hp2
          · rw [hp1]; exact ⟨hn, List.mem_cons_self _ _⟩
          · exact ⟨(ih1 p hp2).1, List.mem_cons_of_mem _ (ih1 p hp2).2⟩
        · intro u hu
          rcases List.mem_cons.1 hu with hu1 | hu2
          · exact ⟨tx, by rw [hu1]; exact hn, by rw [hu1]; exact List.mem_cons_self _ _⟩
          · obtain ⟨tx', h1, h2⟩ := ih2 u hu2
            exact ⟨tx', h1, List.mem_cons_of_mem _ h2⟩

theorem resolveTxBatch_none_of_fail {node : String → Option ProcessedTx}
    {batch : List String} {t : String} (ht : t ∈ batch) (hn : node t = none) :
    resolveTxBatch node batch = none := by
  induction batch with
  | nil => cases ht
  | cons u us ih =>
    rw [resolveTxBatch]
    rcases List.mem_cons.1 ht with h1 | h2
    · rw [← h1, hn]
    · cases hu : node u with
      | none => rfl
      | some tx => rw [ih h2]

theorem resolveTxBatch_eq_none_iff {node : String → Option ProcessedTx}
    {batch : List String} (h : resolveTxBatch node batch = none) :
    ∃ t ∈ batch, node t = none := by
  induction batch with
  | nil => rw [resolveTxBatch] at h; cases h
  | cons u us ih =>
    rw [resolveTxBatch] at h
    cases hu : node u with
    | none => exact ⟨u, List.mem_cons_self _ _, hu⟩
    | some tx =>
      rw [hu] at h
      cases hrec : resolveTxBatch node us with
      | none =>
        obtain ⟨t, ht, hn⟩ := ih hrec
        exact ⟨t, List.mem_cons_of_mem _ ht, hn⟩
      | some rest => rw [hrec] at h; cases h

theorem applyTxUpserts_nil (height : Nat) (db : DB) :
    applyTxUpserts height db [] = db := rfl

theorem applyTxUpserts_cons (height : Nat) (db : DB) (p : String × ProcessedTx)
    (ps : List (String × ProcessedTx)) :
    applyTxUpserts height db (p :: ps) =
      applyTxUpserts height
        { db with transactions := upsertBy (fun r => r.txid) db.transactions (mkTxRow height p.1 p.2) }
        ps := rfl

theorem applyTxUpserts_blocks (height : Nat) (db : DB)
    (resolved : List (String × ProcessedTx)) :
    (applyTxUpserts height db resolved).blocks = db.blocks := by
  induction resolved generalizing db with
  | nil => rfl
  | cons p ps ih => rw [applyTxUpserts_cons]; exact ih _

theorem applyTxUpserts_nodup (height : Nat) {db : DB}
    (hd : (db.transactions.map (fun r => r.txid)).Nodup)
    (resolved : List (String × ProcessedTx)) :
    ((applyTxUpserts height db resolved).transactions.map (fun r => r.txid)).Nodup := by
  induction resolved generalizing db with
  | nil => exact hd
  | cons p ps ih =>
    rw [applyTxUpserts_cons]
    exact ih (keyUnique_upsertBy _ hd _)

theorem applyTxUpserts_preserves {node : String → Option ProcessedTx}
    (height : Nat) {db : DB} {t : String} {tx : ProcessedTx}
    (hn : node t = some tx) (hmem : mkTxRow height t tx ∈ db.transactions)
    {resolved : List (String × ProcessedTx)}
    (hres : ∀ p ∈ resolved, node p.1 = some p.2) :
    mkTxRow height t tx ∈ (applyTxUpserts height db resolved).transactions := by
  induction resolved generalizing db with
  | nil => exact hmem
  | cons p ps ih =>
    rw [applyTxUpserts_cons]
    refine ih ?_ (fun q hq => hres q (List.mem_cons_of_mem _ hq))
    refine mem_upsertBy_of_mem _ hmem ?_
    intro hk
    have hteq : t = p.1 := hk
    have hp := hres p (List.mem_cons_self _ _)
    rw [← hteq, hn] at hp
    cases hp
    rw [hteq]

theorem applyTxUpserts_mem {node : String → Option ProcessedTx}
    (height : Nat) (db : DB) {resolved : List (String × ProcessedTx)}
    (hres : ∀ p ∈ resolved, node p.1 = some p.2) :
    ∀ p ∈ resolved, mkTxRow height p.1 p.2 ∈ (applyTxUpserts height db resolved).transactions := by
  induction resolved generalizing db with
  | nil => intro p hp; cases hp
  | cons q qs ih =>
    intro p hp
    rw [applyTxUpserts_cons]
    rcases List.mem_cons.1 hp with hp1 | hp2
    · rw [hp1]
      refine applyTxUpserts_preserves height (hres q (List.mem_cons_self _ _))
        (mem_upsertBy_self _ _ _) (fun r hr => hres r (List.mem_cons_of_mem _ hr))
    · exact ih _ (fun r hr => hres r (List.mem_cons_of_mem _ hr)) p hp2

theorem applyTxUpserts_id (height : Nat) {db : DB}
    (hd : (db.transactions.map (fun r => r.txid)).Nodup)
    {resolved : List (String × ProcessedTx)}
    (hmem : ∀ p ∈ resolved, mkTxRow height p.1 p.2 ∈ db.transactions) :
    applyTxUpserts height db resolved = db := by
  induction resolved with
  | nil => rfl
  | cons p ps ih =>
    rw [applyTxUpserts_cons]
    rw [upsertBy_eq_self _ hd (hmem p (List.mem_cons_self _ _))]
    exact ih (fun q hq => hmem q (List.mem_cons_of_mem _ hq))

theorem storeTxBatches_nil (node : String → Option ProcessedTx) (height : Nat) (db : DB) :
    storeTxBatches node height db [] = some db := rfl

theorem storeTxBatches_cons (node : String → Option ProcessedTx) (height : Nat) (db : DB)
    (batch : List String) (rest : List (List String)) :
    storeTxBatches node height db (batch :: rest) =
      match resolveTxBatch node batch with
      | none => none
      | some resolved => storeTxBatches node height (applyTxUpserts height db resolved) rest := rfl

theorem storeTxBatches_spec {node : String → Option ProcessedTx} {height : Nat}
    {bs : List (List String)} {db db₂ : DB}
    (h : storeTxBatches node height db bs = some db₂) :
    db₂.blocks = db.blocks ∧
    ((db.transactions.map (fun r => r.txid)).Nodup →
      (db₂.transactions.map (fun r => r.txid)).Nodup) ∧
    (∀ t ∈ bs.flatten, ∃ tx, node t = some tx ∧ mkTxRow height t tx ∈ db₂.transactions) ∧
    (∀ t tx, node t = some tx → mkTxRow height t tx ∈ db.transactions →
      mkTxRow height t tx ∈ db₂.transactions) := by
  induction bs generalizing db with
  | nil =>
    rw [storeTxBatches_nil] at h
    cases h
    refine ⟨rfl, fun hd => hd, ?_, fun t tx _ hm => hm⟩
    intro t ht; cases ht
  | cons batch rest ih =>
    rw [storeTxBatches_cons] at h
    cases hres : resolveTxBatch node batch with
    | none => rw [hres] at h; cases h
    | some resolved =>
      rw [hres] at h
      obtain ⟨ia, ib, ic, id2⟩ := ih h
      obtain ⟨r1, r2⟩ := resolveTxBatch_some_spec hres
      refine ⟨ia.trans (applyTxUpserts_blocks height db resolved), ?_, ?_, ?_⟩
      · intro hd
        exact ib (applyTxUpserts_nodup height hd resolved)
      · intro t ht
        rw [List.flatten_cons] at ht
        rcases List.mem_append.1 ht with h1 | h2
        · obtain ⟨tx, hn, hmem⟩ := r2 t h1
          refine ⟨tx, hn, id2 t tx hn ?_⟩
          have := applyTxUpserts_mem height db (fun p hp => (r1 p hp).1) (t, tx) hmem
          exact this
        · exact ic t h2
      · intro t tx hn hmem
        exact id2 t tx hn
          (applyTxUpserts_preserves height hn hmem (fun p hp => (r1 p hp).1))

theorem storeTxBatches_fail {node : String → Option ProcessedTx} {height : Nat}
    {bs : List (List String)} {t : String}
    (ht : t ∈ bs.flatten) (hn : node t = none) (db : DB) :
    storeTxBatches node height db bs = none := by
  induction bs generalizing db with
  | nil => cases ht
  | cons batch rest ih =>
    rw [storeTxBatches_cons]
    rw [List.flatten_cons] at ht
    rcases List.mem_append.1 ht with h1 | h2
    · rw [resolveTxBatch_none_of_fail h1 hn]
    · cases hres : resolveTxBatch node batch with
      | none => rfl
      | some resolved => exact ih h2 _

theorem storeTxBatches_id {node : String → Option ProcessedTx} {height : Nat}
    {bs : List (List String)} {db : DB}
    (hd : (db.transactions.map (fun r => r.txid)).Nodup)
    (hall : ∀ batch ∈ bs, ∀ t ∈ batch, ∃ tx, node t = some tx ∧
      mkTxRow height t tx ∈ db.transactions) :
    storeTxBatches node height db bs = some db := by
  induction bs with
  | nil => rfl
  | cons batch rest ih =>
    rw [storeTxBatches_cons]
    cases hres : resolveTxBatch node batch with
    | none =>
      obtain ⟨t, ht, hn⟩ := resolveTxBatch_eq_none_iff hres
      obtain ⟨tx, htx, _⟩ := hall batch (List.mem_cons_self _ _) t ht
      rw [hn] at htx
      cases htx
    | some resolved =>
      obtain ⟨r1, _⟩ := resolveTxBatch_some_spec hres
      have hmem : ∀ p ∈ resolved, mkTxRow height p.1 p.2 ∈ db.transactions := by
        intro p hp
        obtain ⟨hnp, hpb⟩ := r1 p hp
        obtain ⟨tx, htx, hm⟩ := hall batch (List.mem_cons_self _ _) p.1 hpb
        rw [hnp] at htx
        cases htx
        exact hm
      show storeTxBatches node height (applyTxUpserts height db resolved) rest = some db
      rw [applyTxUpserts_id height hd hmem]
      exact ih (fun b hb => hall b (List.mem_cons_of_mem _ hb))

theorem txBatches_flatten : ∀ l, (txBatches l).flatten = l := by
  intro l
  induction l using txBatches.induct with
  | case1 => simp [txBatches]
  | case2 x xs ih =>
    rw [txBatches]
    rw [List.flatten_cons, ih]
    exact List.take_append_drop 50 (x :: xs)

theorem initFrontier_some (m : Nat) : initFrontier (some m) = m := by
  by_cases h0 : m = 0 <;> simp [initFrontier, h0]

theorem syncRun_mono (latest : Nat) (rounds : List (Nat → Bool)) (frontier : Nat) :
    frontier ≤ syncRun latest rounds frontier := by
  induction rounds generalizing frontier with
  | nil => exact le_refl _
  | cons ok rest ih =>
    calc frontier ≤ (syncRound ok frontier latest).1 := syncRound_mono ok frontier latest
      _ ≤ syncRun latest rest (syncRound ok frontier latest).1 := ih _
      _ = syncRun latest (ok :: rest) frontier := rfl

/-! ## Claim theorems -/

/-- Claim C3, counterexample.  The claim says that with a non-empty
`blocks` table the startup frontier is the persisted maximum height plus
one.  With persisted maximum height 5, the code
(`currentBlockHeight = result.rows[0].max_height || 0`) initializes the
frontier to 5, not 6. -/
theorem C3_counterexample : initFrontier (some 5) = 5 ∧ (5 : Nat) ≠ 5 + 1 := by decide

/-- Claim C3, amended.  At startup the sync frontier is initialized to the
persisted maximum block height itself (not maximum + 1) when the `blocks`
table is non-empty, and to 0 when it is empty; consequently the first
height ingested after a restart is the highest already-persisted height,
re-ingested (idempotently): the first window launched from the restored
frontier starts exactly at the persisted maximum. -/
theorem C3_startup_frontier :
    (∀ m : Nat, initFrontier (some m) = m) ∧
    initFrontier none = 0 ∧
    (∀ m latest : Nat, initFrontier (some m) ≤ latest →
      ∃ rest, roundWindows (initFrontier (some m)) latest =
        (m, min (m + BATCH_SIZE - 1) latest) :: rest) := by
  refine ⟨initFrontier_some, rfl, ?_⟩
  intro m latest hle
  rw [initFrontier_some] at hle ⊢
  exact ⟨_, roundWindows_head m latest hle⟩

/-- Claim C3, witness for the amended claim's hypothesis: with persisted
maximum height 5 and chain height 10, the first window of the first round
starts at height 5. -/
theorem C3_witness :
    ∃ rest, roundWindows (initFrontier (some 5)) 10 =
      (5, min (5 + BATCH_SIZE - 1) 10) :: rest :=
  C3_startup_frontier.2.2 5 10 (by decide)

/-- Claim C4 (confirmed): within the sync loop the frontier is
non-decreasing over any sequence of rounds; in one round it changes only
when every launched window succeeds, in which case it becomes
`max(window end) + 1` over the round's windows; if any window fails the
frontier is unchanged and the orchestrator sleeps 2000 ms before retrying
the same frontier. -/
theorem C4_frontier_monotone (ok : Nat → Bool) (frontier latest : Nat) :
    frontier ≤ (syncRound ok frontier latest).1 ∧
    (frontier ≤ latest → ¬ (roundWindows frontier latest).all (windowOk ok) = true →
      syncRound ok frontier latest = (frontier, some 2000)) ∧
    (frontier ≤ latest → (roundWindows frontier latest).all (windowOk ok) = true →
      syncRound ok frontier latest =
        ((((roundWindows frontier latest).map Prod.snd).foldl max 0) + 1, none)) ∧
    (∀ rounds : List (Nat → Bool), frontier ≤ syncRun latest rounds frontier) := by
  refine ⟨syncRound_mono ok frontier latest, ?_, ?_, fun rounds => syncRun_mono latest rounds frontier⟩
  · intro hle hall
    rw [syncRound, if_pos hle, if_neg hall]
  · intro hle hall
    rw [syncRound, if_pos hle, if_pos hall]

/-- Claim C4, witness: at frontier 0 with chain height 0, when every
height fails the round leaves the frontier at 0 and schedules a 2 s
retry. -/
theorem C4_witness : syncRound (fun _ => false) 0 0 = (0, some 2000) :=
  (C4_frontier_monotone (fun _ => false) 0 0).2.1 (by decide) (by decide)

/-- Claim C5 (confirmed): with frontier 0, chain height 249,
`BATCH_SIZE = 100` and `CONCURRENT_BATCHES = 5`, one round launches
exactly the windows `[0,99]`, `[100,199]`, `[200,249]` (the last truncated
at the chain height), and when every height succeeds the frontier becomes
250. -/
theorem C5_window_partition :
    roundWindows 0 249 = [(0, 99), (100, 199), (200, 249)] ∧
    syncRound (fun _ => true) 0 249 = (250, none) := by decide

/-- Claim C6 (confirmed): the smoothed per-block time is updated by an
exponential moving average with weight 0.1 for the new sample
(`averageBlockTime * 0.9 + blockTime * 0.1`), seeded with the first
observed duration when the current average is 0; the duration sequence
`[100, 100, 100]` keeps the average at 100, and `[100, 200]` yields 110.
The JavaScript float arithmetic is embedded as exact rationals. -/
theorem C6_ema_update :
    (∀ a d : ℚ, 0 < a → recordBlockTime a d = a * (9 / 10) + d * (1 / 10)) ∧
    (∀ d : ℚ, recordBlockTime 0 d = d) ∧
    List.foldl recordBlockTime 0 [100, 100, 100] = 100 ∧
    List.foldl recordBlockTime 0 [100, 200] = 110 := by
    refine ⟨?_, ?_, ?_, ?_⟩
    · intro a d h
      rw [recordBlockTime, if_neg (ne_of_gt h)]
    · intro d
      rw [recordBlockTime, if_pos rfl]
    · norm_num [recordBlockTime]
    · norm_num [recordBlockTime]

/-- Claim C6, witness: for a current average of 100 and a new duration of
200, the updated average is 110. -/
theorem C6_witness : (0 : ℚ) < 100 ∧ recordBlockTime 100 200 = 110 :=
  ⟨by norm_num, by rw [C6_ema_update.1 100 200 (by norm_num)]; norm_num⟩

/-- Claim C7, counterexample.  The claim says the persisted status is
`pending` (0) exactly when the remote status is the string
`"processing"`.  The code compares against `'Processing'`
(capitalized), so a remote status `"processing"` is persisted as
finalized (1), not pending (0). -/
theorem C7_counterexample :
    (mkTxRow 0 "t" ⟨"p", "processing", none⟩).status = 1 ∧ (1 : Nat) ≠ 0 := by decide

/-- Claim C7, amended: the persisted status is `pending` (stored as 0)
exactly when the remote status is the exact string `"Processing"`
(capitalized, as the code's case-sensitive comparison requires), and
`finalized` (stored as 1) for every other remote status value, including
the lowercase `"processing"`. -/
theorem C7_status_normalized :
    ∀ (height : Nat) (txId : String) (tx : ProcessedTx),
      ((mkTxRow height txId tx).status = 0 ↔ tx.status = "Processing") ∧
      ((mkTxRow height txId tx).status = 1 ↔ tx.status ≠ "Processing") := by
  intro height txId tx
  by_cases hs : tx.status = "Processing" <;> simp [mkTxRow, txStatusCode, hs]

/-- Claim C8, counterexample.  The claim says the orchestrator waits only
100 ms whenever `frontier ≤ chainHeight`.  At `frontier = chainHeight = 5`
the code's condition `currentBlockHeight >= latestBlockHeight` selects the
1000 ms delay. -/
theorem C8_counterexample : 5 ≤ 5 ∧ syncDelay 5 5 = 1000 ∧ syncDelay 5 5 ≠ 100 := by decide

/-- Claim C8, amended: after a sync pass the orchestrator waits 1 s before
re-checking the chain height when `frontier ≥ chainHeight`, and 100 ms
when `frontier < chainHeight` (the code's comparison is `>=`, so equality
falls in the 1 s branch, not the 100 ms branch). -/
theorem C8_poll_delay :
    ∀ frontier latest : Nat,
      (latest ≤ frontier → syncDelay frontier latest = 1000) ∧
      (frontier < latest → syncDelay frontier latest = 100) := by
  intro frontier latest
  constructor
  · intro h
    rw [syncDelay, if_pos h]
  · intro h
    rw [syncDelay, if_neg (not_le.mpr h)]

/-- Claim C8, witness: at frontier 7 = chain height 7 the delay is 1000 ms,
and at frontier 3 below chain height 9 it is 100 ms. -/
theorem C8_witness : syncDelay 7 7 = 1000 ∧ syncDelay 3 9 = 100 :=
  ⟨(C8_poll_delay 7 7).1 (le_refl 7), (C8_poll_delay 3 9).2 (by decide)⟩

/-- Claim C10 (confirmed): for every database state, the blocks listing
endpoint returns at most 200 rows ordered by descending height, and the
transactions listing endpoint returns at most 20 rows ordered by
descending block height. -/
theorem C10_listing_bounds (db : DB) :
    (apiBlocks db).length ≤ 200 ∧
    List.Sorted (fun a b => b.height ≤ a.height) (apiBlocks db) ∧
    (apiTransactions db).length ≤ 20 ∧
    List.Sorted (fun a b => b.block_height ≤ a.block_height) (apiTransactions db) := by
  haveI hbt : IsTotal BlockRow (fun a b => b.height ≤ a.height) :=
    ⟨fun a b => le_total b.height a.height⟩
  haveI hbr : IsTrans BlockRow (fun a b => b.height ≤ a.height) :=
    ⟨fun a b c hab hbc => le_trans hbc hab⟩
  haveI htt : IsTotal TxRow (fun a b => b.block_height ≤ a.block_height) :=
    ⟨fun a b => le_total b.block_height a.block_height⟩
  haveI htr : IsTrans TxRow (fun a b => b.block_height ≤ a.block_height) :=
    ⟨fun a b c hab hbc => le_trans hbc hab⟩
  refine ⟨?_, ?_, ?_, ?_⟩
  · exact le_trans (le_of_eq (List.length_take _ _)) (min_le_left _ _)
  · exact List.Pairwise.sublist (List.take_sublist _ _) (List.sorted_insertionSort _ _)
  · exact le_trans (le_of_eq (List.length_take _ _)) (min_le_left _ _)
  · exact List.Pairwise.sublist (List.take_sublist _ _) (List.sorted_insertionSort _ _)

/-- Claim C9 (confirmed): the search endpoint resolves a term by fixed
precedence — a transaction whose id equals the term wins over everything
(in particular over a block whose hash or height also matches); otherwise
a block whose hash equals the term; otherwise, only when the term parses
as an integer, the block at that height; otherwise 404 (`notFound`). -/
theorem C9_search_precedence (db : DB) (term : String) :
    (∀ r ∈ db.transactions, r.txid = term →
      ∃ r2, searchTerm db term = SearchResult.tx r2 ∧ r2.txid = term ∧ r2 ∈ db.transactions) ∧
    ((∀ r ∈ db.transactions, r.txid ≠ term) →
      ∀ r ∈ db.blocks, r.hash = term →
        ∃ r2, searchTerm db term = SearchResult.block r2 ∧ r2.hash = term ∧ r2 ∈ db.blocks) ∧
    ((∀ r ∈ db.transactions, r.txid ≠ term) → (∀ r ∈ db.blocks, r.hash ≠ term) →
      ∀ h : Int, jsParseInt term = some h →
        ∀ r ∈ db.blocks, (r.height : Int) = h →
          ∃ r2, searchTerm db term = SearchResult.block r2 ∧ (r2.height : Int) = h ∧
            r2 ∈ db.blocks) ∧
    ((∀ r ∈ db.transactions, r.txid ≠ term) → (∀ r ∈ db.blocks, r.hash ≠ term) →
      (∀ h : Int, jsParseInt term = some h → ∀ r ∈ db.blocks, (r.height : Int) ≠ h) →
      searchTerm db term = SearchResult.notFound) := by
  refine ⟨?_, ?_, ?_, ?_⟩
  · intro r hr hrt
    cases hf : db.transactions.find? (fun r => r.txid = term) with
    | none =>
      exfalso
      have := List.find?_eq_none.1 hf r hr
      simp only [decide_eq_true_eq] at this
      exact this hrt
    | some r2 =>
      refine ⟨r2, ?_, ?_, List.mem_of_find?_eq_some hf⟩
      · unfold searchTerm
        rw [hf]
      · simpa using List.find?_some hf
  · intro htx r hr hrh
    have hf1 : db.transactions.find? (fun r => r.txid = term) = none :=
      List.find?_eq_none.2 (fun x hx => by simpa using htx x hx)
    cases hf2 : db.blocks.find? (fun r => r.hash = term) with
    | none =>
      exfalso
      have := List.find?_eq_none.1 hf2 r hr
      simp only [decide_eq_true_eq] at this
      exact this hrh
    | some r2 =>
      refine ⟨r2, ?_, ?_, List.mem_of_find?_eq_some hf2⟩
      · unfold searchTerm
        rw [hf1, hf2]
      · simpa using List.find?_some hf2
  · intro htx hbh h hp r hr hrh
    have hf1 : db.transactions.find? (fun r => r.txid = term) = none :=
      List.find?_eq_none.2 (fun x hx => by simpa using htx x hx)
    have hf2 : db.blocks.find? (fun r => r.hash = term) = none :=
      List.find?_eq_none.2 (fun x hx => by simpa using hbh x hx)
    cases hf3 : db.blocks.find? (fun r => (r.height : Int) = h) with
    | none =>
      exfalso
      have := List.find?_eq_none.1 hf3 r hr
      simp only [decide_eq_true_eq] at this
      exact this hrh
    | some r2 =>
      refine ⟨r2, ?_, ?_, List.mem_of_find?_eq_some hf3⟩
      · unfold searchTerm
        simp only [hf1, hf2, hp, hf3]
      · simpa using List.find?_some hf3
  · intro htx hbh hheights
    have hf1 : db.transactions.find? (fun r => r.txid = term) = none :=
      List.find?_eq_none.2 (fun x hx => by simpa using htx x hx)
    have hf2 : db.blocks.find? (fun r => r.hash = term) = none :=
      List.find?_eq_none.2 (fun x hx => by simpa using hbh x hx)
    cases hp : jsParseInt term with
    | none =>
      unfold searchTerm
      rw [hf1, hf2, hp]
    | some h =>
      have hf3 : db.blocks.find? (fun r => (r.height : Int) = h) = none :=
        List.find?_eq_none.2 (fun x hx => by simpa using hheights h hp x hx)
      unfold searchTerm
      simp only [hf1, hf2, hp, hf3]

/-- Claim C9, witness: in a store where `"dead"` is simultaneously a
transaction id and a block hash, searching for `"dead"` yields the
transaction. -/
theorem C9_witness :
    ∃ r2, searchTerm exSearchDB "dead" = SearchResult.tx r2 ∧ r2.txid = "dead" ∧
      r2 ∈ exSearchDB.transactions :=
  (C9_search_precedence exSearchDB "dead").1 ⟨"dead", 1, "p", 1, []⟩ (by simp [exSearchDB]) rfl

/-- Claim C1 (confirmed, sequential reading): storing the same block again
on top of a committed store of that block commits the identical state
(`store(b); store(b)` has the same store effect as `store(b)`), and the
committed state has exactly one `blocks` row at the block's height and
exactly one `transactions` row per transaction id, all with the fields of
the latest ingestion.  Concurrent duplicate ingestion serializes through
the per-block database transaction into this sequential case. -/
theorem C1_ingest_idempotent (node : String → Option ProcessedTx) (b : Block) (db db₂ : DB)
    (hwf : wfDB db) (h : storeBlockOps node b db = some db₂) :
    storeBlockOps node b db₂ = some db₂ ∧
    (db₂.blocks.filter (fun r => r.height = b.height)).length = 1 ∧
    (∀ r ∈ db₂.blocks, r.height = b.height → r = blockRowOf b) ∧
    (∀ t ∈ b.transactions,
      (db₂.transactions.filter (fun r => r.txid = t)).length = 1 ∧
      ∃ tx, node t = some tx ∧
        ∀ r ∈ db₂.transactions, r.txid = t → r = mkTxRow b.height t tx) := by
  obtain ⟨hwb, hwt⟩ := hwf
  rw [storeBlockOps] at h
  obtain ⟨ha, hb, hc, _⟩ := storeTxBatches_spec h
  have ha' : db₂.blocks = upsertBy (fun r => r.height) db.blocks (blockRowOf b) := ha
  have hc' : ∀ t ∈ b.transactions, ∃ tx, node t = some tx ∧
      mkTxRow b.height t tx ∈ db₂.transactions := by
    intro t ht
    refine hc t ?_
    rw [txBatches_flatten]
    exact ht
  have hnodupB : (db₂.blocks.map (fun r => r.height)).Nodup := by
    rw [ha']
    exact keyUnique_upsertBy _ hwb _
  have hnodupT : (db₂.transactions.map (fun r => r.txid)).Nodup := hb hwt
  have hmemB : blockRowOf b ∈ db₂.blocks := by
    rw [ha']
    exact mem_upsertBy_self _ _ _
  refine ⟨?_, ?_, ?_, ?_⟩
  · rw [storeBlockOps]
    rw [upsertBy_eq_self (fun r => r.height) hnodupB hmemB]
    exact storeTxBatches_id hnodupT (by
      intro batch hbatch t ht
      exact hc' t (by rw [← txBatches_flatten b.transactions]; exact List.mem_flatten.2 ⟨batch, hbatch, ht⟩))
  · exact length_filter_key_eq_one (fun r => r.height) hnodupB hmemB
  · intro r hr hrh
    exact keyUnique_eq (fun r => r.height) hnodupB hr hmemB hrh
  · intro t ht
    obtain ⟨tx, hn, hmemT⟩ := hc' t ht
    refine ⟨length_filter_key_eq_one (fun r => r.txid) hnodupT hmemT, tx, hn, ?_⟩
    intro r hr hrt
    exact keyUnique_eq (fun r => r.txid) hnodupT hr hmemT hrt

/-- Claim C1, witness: storing the concrete block `exBlock` (one
transaction) from `exNode` into the empty store commits `exDB1`, and
storing it again on top of `exDB1` commits `exDB1` unchanged, with
exactly one block row at its height. -/
theorem C1_witness :
    storeBlockOps exNode exBlock exDB1 = some exDB1 ∧
    (exDB1.blocks.filter (fun r => r.height = exBlock.height)).length = 1 := by
  have hwf : wfDB exDB0 := ⟨by simp [exDB0], by simp [exDB0]⟩
  have h : storeBlockOps exNode exBlock exDB0 = some exDB1 := by
    simp [storeBlockOps, storeTxBatches, txBatches, resolveTxBatch, applyTxUpserts,
      upsertBy, mkTxRow, txStatusCode, blockRowOf, exNode, exBlock, exDB0, exDB1]
  have hmain := C1_ingest_idempotent exNode exBlock exDB0 exDB1 hwf h
  exact ⟨hmain.1, hmain.2.1⟩

/-- Claim C2 (confirmed): `store(block)` is all-or-nothing — if any
transaction resolution fails, the database transaction is rolled back (the
pre-store state stays visible, `false` models the propagated error) and no
block or transaction row of that height becomes visible; on success the
committed state contains the block row, and every stored transaction row
of the block has its parent block row in the same committed state, so a
reader never observes one of these transactions without its parent
block. -/
theorem C2_store_atomic (node : String → Option ProcessedTx) (b : Block) (db : DB) :
    ((∃ t ∈ b.transactions, node t = none) → storeBlock node b db = (db, false)) ∧
    (∀ db₂, storeBlockOps node b db = some db₂ →
      storeBlock node b db = (db₂, true) ∧
      blockRowOf b ∈ db₂.blocks ∧
      ∀ t ∈ b.transactions, ∃ r ∈ db₂.transactions, r.txid = t ∧ r.block_height = b.height ∧
        ∃ br ∈ db₂.blocks, br.height = r.block_height) := by
  constructor
  · rintro ⟨t, ht, hn⟩
    have hnone : storeBlockOps node b db = none := by
      rw [storeBlockOps]
      refine storeTxBatches_fail ?_ hn _
      rw [txBatches_flatten]
      exact ht
    rw [storeBlock, hnone]
  · intro db₂ h
    have hops := h
    rw [storeBlockOps] at hops
    obtain ⟨ha, _, hc, _⟩ := storeTxBatches_spec hops
    have ha' : db₂.blocks = upsertBy (fun r => r.height) db.blocks (blockRowOf b) := ha
    have hmemB : blockRowOf b ∈ db₂.blocks := by
      rw [ha']
      exact mem_upsertBy_self _ _ _
    refine ⟨by rw [storeBlock, h], hmemB, ?_⟩
    intro t ht
    have hct := hc t (by rw [txBatches_flatten]; exact ht)
    obtain ⟨tx, hn, hmem⟩ := hct
    exact ⟨mkTxRow b.height t tx, hmem, rfl, rfl, blockRowOf b, hmemB, rfl⟩

/-- Claim C2, witness: with a node for which every transaction fetch
fails, storing `exBlock` into the empty store rolls back — the empty
store stays visible and the error is propagated. -/
theorem C2_witness : storeBlock exNodeDown exBlock exDB0 = (exDB0, false) :=
  (C2_store_atomic exNodeDown exBlock exDB0).1 ⟨"t1", by simp [exBlock], rfl⟩

end ArchIndexer
